import Mathlib

/-!
A verification development for the query-analysis pipeline of the PubMed
query optimizer (src/main.py).  The pipeline tokenizes a boolean search
query, parses it into a nested tree, extracts the minimal operator-bearing
groups, flattens them, reconstructs a query string, tags the OR keywords,
and runs a greedy elimination loop against an external result-count oracle.

Python strings are modelled as Lean String (with character-list reasoning
through String.data); Python nested lists (str | list) are modelled by the
mutually inductive types QS and QL below.  The result-count oracle (a
Selenium round trip in the source) is modelled as a pure function
String -> Nat passed as a parameter.  Character classes follow the ASCII
behaviour of the source regular expression.
-/

namespace PubMedOpt

/-! ## Basic string utilities -/

/-- ASCII upper-casing of a string, character by character; models the
Python str.upper used by the source for operator comparisons. -/
def pyUpper (s : String) : String := ⟨s.data.map Char.toUpper⟩

/-- Case-insensitive test for the two operators, as in the repeated
source idiom: elem.upper() in ["AND", "OR"]. -/
def isOp (s : String) : Bool := pyUpper s = "AND" || pyUpper s = "OR"

/-- The Python expression " ".join(parts). -/
def spaceJoin : List String → String
  | [] => ""
  | [s] => s
  | s :: rest => s ++ " " ++ spaceJoin rest

/-- Bool-valued list-prefix test (first argument is the candidate prefix). -/
def isPre : List Char → List Char → Bool
  | [], _ => true
  | _ :: _, [] => false
  | a :: as, b :: bs => a == b && isPre as bs

/-- Bool-valued substring-occurrence test, the Python expression
needle in hay on strings, at the character-list level. -/
def subOccurs (needle : List Char) : List Char → Bool
  | [] => needle.isEmpty
  | c :: rest => isPre needle (c :: rest) || subOccurs needle rest

/-! ## The nested query structure

The source type alias is QueryStructure = Union[str, List[Any]]: a value is
either a string or a (python) list of values.  QS models one value, QL a
list of values. -/

mutual
inductive QS where
  | term : String → QS
  | group : QL → QS
deriving DecidableEq
inductive QL where
  | nil : QL
  | cons : QS → QL → QL
deriving DecidableEq
end

def QL.ofList : List QS → QL
  | [] => .nil
  | q :: r => .cons q (QL.ofList r)

def QL.toList : QL → List QS
  | .nil => []
  | .cons q r => q :: QL.toList r

def qlAppend : QL → QL → QL
  | .nil, m => m
  | .cons q r, m => .cons q (qlAppend r m)

/-- The list of QS.term values for a given list of strings (a python list
of plain tokens). -/
def qlOfTerms : List String → QL
  | [] => .nil
  | t :: r => .cons (QS.term t) (qlOfTerms r)

/-! ## Step 1: tokenize (main.py lines 31-36)

The source compiles the case-SENSITIVE pattern
r'\(|\)|\bAND\b|\bOR\b|[^\s()]+' (no re.IGNORECASE flag) and returns
findall(query).  We model the findall scan directly: skip characters that
start no match (only whitespace can), then at each position try the
alternatives in order.  The word boundary \b is tracked through the
previous character. -/

/-- ASCII model of the regex class backslash-w. -/
def pyWordChar (c : Char) : Bool := c.isAlpha || c.isDigit || c = '_'

/-- ASCII model of the regex class backslash-s. -/
def pySpace (c : Char) : Bool :=
  c = ' ' || c = '\t' || c = '\n' || c = '\x0d' || c = '\x0b' || c = '\x0c'

/-- A character that the fallback alternative [^\s()]+ can consume. -/
def isTermChar (c : Char) : Bool := !pySpace c && c ≠ '(' && c ≠ ')'

/-- Maximal run of term characters (the text matched by [^\s()]+). -/
def termRun : List Char → List Char
  | [] => []
  | c :: rest => if isTermChar c then c :: termRun rest else []

/-- What remains after the maximal run of term characters. -/
def termRest : List Char → List Char
  | [] => []
  | c :: rest => if isTermChar c then termRest rest else c :: rest

/-- Word-boundary condition on the left of a match position: start of the
string or a non-word previous character. -/
def boundaryBefore : Option Char → Bool
  | none => true
  | some c => !pyWordChar c

/-- Word-boundary condition on the right of a matched operator: end of the
string or a non-word next character. -/
def boundaryAfterOk : List Char → Bool
  | [] => true
  | c :: _ => !pyWordChar c

/-- One findall scan.  The fuel argument only bounds the recursion; every
step consumes at least one character, so fuel = length of the input never
runs out. -/
def tokenizeAux : Nat → Option Char → List Char → List String
  | 0, _, _ => []
  | _ + 1, _, [] => []
  | fuel + 1, prev, c :: rest =>
    if pySpace c then tokenizeAux fuel (some c) rest
    else if c = '(' then "(" :: tokenizeAux fuel (some '(') rest
    else if c = ')' then ")" :: tokenizeAux fuel (some ')') rest
    else if boundaryBefore prev && isPre ['A', 'N', 'D'] (c :: rest)
            && boundaryAfterOk (List.drop 3 (c :: rest)) then
      "AND" :: tokenizeAux fuel (some 'D') (List.drop 3 (c :: rest))
    else if boundaryBefore prev && isPre ['O', 'R'] (c :: rest)
            && boundaryAfterOk (List.drop 2 (c :: rest)) then
      "OR" :: tokenizeAux fuel (some 'R') (List.drop 2 (c :: rest))
    else
      String.mk (c :: termRun rest)
        :: tokenizeAux fuel (some ((c :: termRun rest).getLastD c)) (termRest rest)

/-- main.py tokenize. -/
def tokenize (query : String) : List String :=
  tokenizeAux query.data.length none query.data

/-! ## Step 1: parse_tokens (main.py lines 38-52)

The source consumes the python token list destructively; we model it as a
function returning the built tree together with the tokens left over, the
standard functional reframing of a destructive queue.  The result length
bound carried in the subtype is what makes the nested recursion
terminating. -/

def parseAux : (tokens : List String) → { p : QL × List String // p.2.length ≤ tokens.length }
  | [] => ⟨(.nil, []), Nat.le_refl 0⟩
  | t :: ts =>
    if t = "(" then
      match parseAux ts with
      | ⟨(subtree, rest1), h1⟩ =>
        match parseAux rest1 with
        | ⟨(tree, rest2), h2⟩ =>
          ⟨(QL.cons (QS.group subtree) tree, rest2), by
            have g1 : rest1.length ≤ ts.length := h1
            have g2 : rest2.length ≤ rest1.length := h2
            simp only [List.length_cons]; omega⟩
    else if t = ")" then ⟨(.nil, ts), by simp⟩
    else
      match parseAux ts with
      | ⟨(tree, rest), h⟩ =>
        ⟨(QL.cons (QS.term t) tree, rest), by
          have g : rest.length ≤ ts.length := h
          simp only [List.length_cons]; omega⟩
termination_by tokens => tokens.length
decreasing_by
  all_goals simp_wf
  all_goals first
    | omega
    | exact Nat.lt_succ_of_le h1

/-- main.py parse_tokens: the built tree together with the unconsumed
tokens (tokens after an unmatched closing parenthesis). -/
def parse_tokens (tokens : List String) : QL × List String := (parseAux tokens).val

/-- main.py parse_query (the leftover tokens are dropped, as the source
ignores the mutated remainder of its token list). -/
def parse_query (query : String) : QL := (parse_tokens (tokenize query)).1

/-! ## Step 2: contains_operator and get_minimal_operator_groups
(main.py lines 64-90) -/

mutual
/-- main.py contains_operator: a string never contains an operator; a list
contains one when some element is a list containing one or is a string
whose upper case is AND or OR. -/
def contains_operator : QS → Bool
  | .term _ => false
  | .group l => containsOperatorList l

def containsOperatorList : QL → Bool
  | .nil => false
  | .cons (.term s) rest => isOp s || containsOperatorList rest
  | .cons (.group g) rest => containsOperatorList g || containsOperatorList rest
termination_by structural l => l
end

/-- The source loop condition isinstance(elem, list) and
contains_operator(elem). -/
def isGroupWithOp : QS → Bool
  | .term _ => false
  | .group g => containsOperatorList g

/-- The child_has_operator flag of get_minimal_operator_groups: some
direct child is a list containing an operator. -/
def childHasOp : QL → Bool
  | .nil => false
  | .cons q rest => isGroupWithOp q || childHasOp rest

mutual
/-- main.py get_minimal_operator_groups. -/
def get_minimal_operator_groups : QS → List QS
  | .term _ => []
  | .group l =>
    if containsOperatorList l then
      if childHasOp l then minimalOfChildren l else [QS.group l]
    else []
termination_by structural q => q

/-- The extend-loop of get_minimal_operator_groups over the children. -/
def minimalOfChildren : QL → List QS
  | .nil => []
  | .cons q rest =>
    (if isGroupWithOp q then get_minimal_operator_groups q else []) ++ minimalOfChildren rest
termination_by structural l => l
end

/-! ## Step 2: is_list_within and join_keyword (main.py lines 92-116) -/

/-- main.py is_list_within: any(isinstance(item, list) for item in item_list). -/
def is_list_within : QL → Bool
  | .nil => false
  | .cons (.term _) rest => is_list_within rest
  | .cons (.group _) _ => true

/-- Membership test "OR" in modified_list: python == compares the exact
string "OR" against each element (a list element is never equal to a
string). -/
def qlHasORTerm : QL → Bool
  | .nil => false
  | .cons q rest => decide (q = QS.term "OR") || qlHasORTerm rest

/-- The strings of a list whose elements are all strings.  The group case
is unreachable under the no-list guard of joinFinish (python would raise a
TypeError in " ".join there). -/
def qlTermStrings : QL → List String
  | .nil => []
  | .cons (.term s) rest => s :: qlTermStrings rest
  | .cons (.group _) rest => "" :: qlTermStrings rest

/-- The final branch of join_keyword: if "OR" not in modified_list and not
is_list_within(modified_list) then " ".join(modified_list) else
modified_list. -/
def joinFinish (modified : QL) : QS :=
  if !qlHasORTerm modified && !is_list_within modified then
    .term (spaceJoin (qlTermStrings modified))
  else .group modified

mutual
/-- main.py join_keyword.  A non-list input becomes the one-element
modified_list [item]; a list input has each list child processed
recursively and each string child kept. -/
def join_keyword : QS → QS
  | .term s => joinFinish (QL.cons (.term s) .nil)
  | .group l => joinFinish (joinChildren l)
termination_by structural q => q

/-- The modified_list building loop of join_keyword. -/
def joinChildren : QL → QL
  | .nil => .nil
  | .cons (.term s) rest => .cons (.term s) (joinChildren rest)
  | .cons (.group g) rest => .cons (join_keyword (.group g)) (joinChildren rest)
termination_by structural l => l
end

/-! ## Step 2: reverse_joined_keywords (main.py lines 118-131) -/

mutual
/-- main.py reverse_joined_keywords. -/
def reverse_joined_keywords : QS → Bool → String
  | .term s, _ => if isOp s then s else "(" ++ s ++ ")"
  | .group l, topLevel =>
    if topLevel then spaceJoin (reverseParts l)
    else "(" ++ spaceJoin (reverseParts l) ++ ")"
termination_by structural q => q

/-- The list comprehension of reverse_joined_keywords (each element
reconstructed with top_level = False). -/
def reverseParts : QL → List String
  | .nil => []
  | .cons q rest => reverse_joined_keywords q false :: reverseParts rest
termination_by structural l => l
end

/-! ## Step 3: get_or_keyword (main.py lines 187-213) -/

/-- The final_list construction of get_or_keyword: with more than one
collected keyword the first is tagged "after" and all later ones "before";
a single keyword keeps no hint. -/
def finalizeHints : List (String × Option String) → List (String × Option String)
  | [] => []
  | [k] => [(k.1, none)]
  | k :: rest => (k.1, some "after") :: rest.map (fun p => (p.1, some "before"))

mutual
/-- main.py get_or_keyword. -/
def get_or_keyword : QS → List (String × Option String)
  | .term s => finalizeHints (if isOp s then [] else [(s, none)])
  | .group l => finalizeHints (rawKeywordList l)
termination_by structural q => q

/-- The keywords_list building loop of get_or_keyword: operators are
skipped, plain terms are appended untagged, nested lists contribute the
(already tagged) result of the recursive call. -/
def rawKeywordList : QL → List (String × Option String)
  | .nil => []
  | .cons (.term s) rest => (if isOp s then [] else [(s, none)]) ++ rawKeywordList rest
  | .cons (.group g) rest => get_or_keyword (.group g) ++ rawKeywordList rest
termination_by structural l => l
end

/-! ## Step 3: search_pubmed (main.py lines 136-185)

The Selenium round trip perform_search is the external result-count
oracle; it is modelled as a pure function oracle : String -> Nat.  The
loop body is translated directly. -/

/-- The replace_text computed for one tagged keyword (lines 171-176). -/
def replaceTextFor (kw : String × Option String) : String :=
  if kw.2 = some "before" then " OR (" ++ kw.1 ++ ")"
  else if kw.2 = some "after" then "(" ++ kw.1 ++ ") OR "
  else "(" ++ kw.1 ++ ")"

/-- Python str.replace(old, "") on character lists: remove every
occurrence of old, scanning left to right, non-overlapping.  The fuel only
bounds the recursion; pyReplace supplies fuel = length, which never runs
out since every step consumes at least one character. -/
def pyReplaceAux (old : List Char) : Nat → List Char → List Char
  | _, [] => []
  | 0, s => s
  | fuel + 1, c :: rest =>
    if old ≠ [] && isPre old (c :: rest) then
      pyReplaceAux old fuel (List.drop (old.length - 1) rest)
    else c :: pyReplaceAux old fuel rest

/-- Python str.replace(old, "") (all occurrences). -/
def pyReplace (old s : List Char) : List Char := pyReplaceAux old s.length s

/-- The candidate new_query = current_query.replace(replace_text, "")
formed in each iteration of the search loop (line 178). -/
def candidateQuery (currentQuery : String) (kw : String × Option String) : String :=
  ⟨pyReplace (replaceTextFor kw).data currentQuery.data⟩

/-- The loop state of search_pubmed. -/
structure SearchLoopState where
  currentQuery : String
  excluded : List String
deriving DecidableEq

/-- One iteration of the for-loop of search_pubmed (lines 170-182). -/
def searchStep (oracle : String → Nat) (resultCount : Nat)
    (st : SearchLoopState) (kw : String × Option String) : SearchLoopState :=
  let newQuery := candidateQuery st.currentQuery kw
  if oracle newQuery = resultCount then
    ⟨newQuery, st.excluded ++ [kw.1]⟩
  else st

/-- main.py search_pubmed: baseline count, final query and excluded
keywords. -/
def search_pubmed (oracle : String → Nat) (query : String)
    (orKeywords : List (String × Option String)) : Nat × String × List String :=
  let resultCount := oracle query
  let final := orKeywords.foldl (searchStep oracle resultCount) ⟨query, []⟩
  (resultCount, final.currentQuery, final.excluded)

/-! ## Definitions taken from the specification text

These definitions follow the words of the specification, not the source;
they exist to be compared against the source translations above. -/

mutual
/-- Modelled from the spec (section 4.6): recursively collect every leaf
term that is not AND/OR (case-insensitive), in left-to-right order,
descending into nested lists; operators are dropped. -/
def collectLeafTerms : QS → List String
  | .term s => if isOp s then [] else [s]
  | .group l => collectLeafList l

def collectLeafList : QL → List String
  | .nil => []
  | .cons (.term s) rest => (if isOp s then [] else [s]) ++ collectLeafList rest
  | .cons (.group g) rest => collectLeafList g ++ collectLeafList rest
termination_by structural l => l
end

/-- Modelled from the spec (section 3, OrKeywordEntry): exactly one entry,
the first when more than one term exists, is tagged "after"; all
subsequent entries are tagged "before"; a lone entry carries no tag. -/
def tagTermsSpec : List String → List (String × Option String)
  | [] => []
  | [t] => [(t, none)]
  | t :: rest => (t, some "after") :: rest.map (fun x => (x, some "before"))

/-- Modelled from the spec (section 4.7): remove the FIRST occurrence of
old, leaving the rest of the string untouched; absent substring is a
no-op. -/
def removeFirstSpec (old : List Char) : List Char → List Char
  | [] => []
  | c :: rest =>
    if old ≠ [] && isPre old (c :: rest) then List.drop (old.length - 1) rest
    else c :: removeFirstSpec old rest

/-- Number of positions at which old occurs in a string (overlapping
occurrences counted separately). -/
def occCount (old : List Char) : List Char → Nat
  | [] => if old.isEmpty then 1 else 0
  | c :: rest => (if isPre old (c :: rest) then 1 else 0) + occCount old rest

/-- An OR-chain structure: the flat list t1 OR t2 OR ... OR tn. -/
def orChain : List String → QL
  | [] => .nil
  | [t] => .cons (.term t) .nil
  | t :: rest => .cons (.term t) (.cons (.term "OR") (orChain rest))

/-- The reconstructed string of an OR-chain: (t1) OR (t2) OR ... OR (tn). -/
def orJoinStr : List String → String
  | [] => ""
  | [t] => "(" ++ t ++ ")"
  | t :: rest => "(" ++ t ++ ") OR " ++ orJoinStr rest

/-- Balanced token sequences: the empty sequence, a non-parenthesis token
followed by a balanced sequence, or a parenthesized balanced sequence
followed by a balanced sequence. -/
inductive Bal : List String → Prop
  | nil : Bal []
  | tok : ∀ t ts, t ≠ "(" → t ≠ ")" → Bal ts → Bal (t :: ts)
  | paren : ∀ inner ts, Bal inner → Bal ts → Bal ("(" :: inner ++ ")" :: ts)

/-- The term/operator token sequence of a parsed tree, in order,
parentheses forgotten. -/
def flattenTokens : QL → List String
  | .nil => []
  | .cons (.term s) rest => s :: flattenTokens rest
  | .cons (.group g) rest => flattenTokens g ++ flattenTokens rest


/-! # Helper lemmas -/

theorem isOp_OR : isOp "OR" = true := by decide

theorem qlAppend_nil : ∀ t : QL, qlAppend t .nil = t
  | .nil => rfl
  | .cons q r => by rw [qlAppend, qlAppend_nil r]

/-! ## Minimal operator groups (claim C3) -/

mutual
theorem minimal_groups_spec : ∀ (q : QS), ∀ g ∈ get_minimal_operator_groups q,
    contains_operator g = true ∧ ∀ m : QL, g = QS.group m → childHasOp m = false
  | .term _, g, hg => by simp [get_minimal_operator_groups] at hg
  | .group l, g, hg => by
    rw [get_minimal_operator_groups] at hg
    by_cases h1 : containsOperatorList l = true
    · rw [if_pos h1] at hg
      by_cases h2 : childHasOp l = true
      · rw [if_pos h2] at hg
        exact minimal_children_spec l g hg
      · rw [if_neg h2] at hg
        have hg' : g = QS.group l := by simpa using hg
        subst hg'
        refine ⟨by simpa [contains_operator] using h1, ?_⟩
        intro m hm
        cases hm
        simpa using h2
    · rw [if_neg h1] at hg
      simp at hg
termination_by structural q => q

theorem minimal_children_spec : ∀ (l : QL), ∀ g ∈ minimalOfChildren l,
    contains_operator g = true ∧ ∀ m : QL, g = QS.group m → childHasOp m = false
  | .nil, g, hg => by simp [minimalOfChildren] at hg
  | .cons q rest, g, hg => by
    rw [minimalOfChildren] at hg
    rcases List.mem_append.mp hg with h | h
    · by_cases hq : isGroupWithOp q
      · exact minimal_groups_spec q g (by simpa [hq] using h)
      · simp [hq] at h
    · exact minimal_children_spec rest g h
termination_by structural l => l
end


/-- C3: the extractor returns, for the spec example tree, exactly the two
inner groups; and in general every returned group contains an operator
while none of its direct child groups contains one (it is minimal).  A
non-minimal operator-bearing group therefore never occurs in the output,
which settles the ordering clause about enclosing non-minimal ancestors
vacuously. -/
theorem c3_minimal_groups :
    (get_minimal_operator_groups
        (QS.group (QL.ofList [QS.group (QL.ofList [QS.term "a", QS.term "AND", QS.term "b"]),
          QS.term "OR",
          QS.group (QL.ofList [QS.term "c", QS.term "AND",
            QS.group (QL.ofList [QS.term "d", QS.term "OR", QS.term "e"])])]))
      = [QS.group (QL.ofList [QS.term "a", QS.term "AND", QS.term "b"]),
         QS.group (QL.ofList [QS.term "d", QS.term "OR", QS.term "e"])])
    ∧ ∀ (q : QS), ∀ g ∈ get_minimal_operator_groups q,
        contains_operator g = true ∧ ∀ m : QL, g = QS.group m → childHasOp m = false :=
  ⟨by decide, minimal_groups_spec⟩

/-- Witness for c3_minimal_groups: the group [a, AND, b] is a member of the
output for the example tree, so it contains an operator and has no
operator-bearing child group. -/
theorem c3_minimal_groups_witness :
    contains_operator (QS.group (QL.ofList [QS.term "a", QS.term "AND", QS.term "b"])) = true
    ∧ ∀ m : QL, QS.group (QL.ofList [QS.term "a", QS.term "AND", QS.term "b"]) = QS.group m →
        childHasOp m = false :=
  c3_minimal_groups.2
    (QS.group (QL.ofList [QS.group (QL.ofList [QS.term "a", QS.term "AND", QS.term "b"]),
      QS.term "OR",
      QS.group (QL.ofList [QS.term "c", QS.term "AND",
        QS.group (QL.ofList [QS.term "d", QS.term "OR", QS.term "e"])])]))
    (QS.group (QL.ofList [QS.term "a", QS.term "AND", QS.term "b"])) (by decide)

/-! ## The flattener (claims C4 and C9) -/

theorem qlHasORTerm_false_iff : ∀ m : QL,
    qlHasORTerm m = false ↔ QS.term "OR" ∉ m.toList
  | .nil => by simp [qlHasORTerm, QL.toList]
  | .cons q rest => by
    rw [qlHasORTerm, QL.toList]
    rw [Bool.or_eq_false_iff, decide_eq_false_iff_not]
    rw [qlHasORTerm_false_iff rest]
    simp [not_or, eq_comm]

theorem is_list_within_false_iff : ∀ m : QL,
    is_list_within m = false ↔ ∀ g : QL, QS.group g ∉ m.toList
  | .nil => by simp [is_list_within, QL.toList]
  | .cons (.term s) rest => by
    simp [is_list_within, QL.toList, is_list_within_false_iff rest]
  | .cons (.group g0) rest => by
    simp only [is_list_within, QL.toList]
    constructor
    · intro h; cases h
    · intro h; exact absurd (List.mem_cons_self _ _) (h g0)

/-- C4 (amended): after flattening all children, join_keyword joins them
with single spaces into one string exactly when the flattened child
sequence contains no term equal to the exact string OR (the source
membership test is case-sensitive) and contains no nested list; otherwise
the flattened list is returned as-is. -/
theorem c4_flattener_join_condition : ∀ l : QL,
    ((∃ s, join_keyword (QS.group l) = QS.term s) ↔
      (QS.term "OR" ∉ (joinChildren l).toList ∧ ∀ g : QL, QS.group g ∉ (joinChildren l).toList))
    ∧ ((QS.term "OR" ∉ (joinChildren l).toList ∧ ∀ g : QL, QS.group g ∉ (joinChildren l).toList) →
      join_keyword (QS.group l) = QS.term (spaceJoin (qlTermStrings (joinChildren l)))) := by
  intro l
  have hj : join_keyword (QS.group l) = joinFinish (joinChildren l) := by rw [join_keyword]
  rw [hj, joinFinish]
  by_cases hOR : qlHasORTerm (joinChildren l) = true
  · have hmem : QS.term "OR" ∈ (joinChildren l).toList := by
      by_contra hc
      rw [← qlHasORTerm_false_iff] at hc
      simp [hOR] at hc
    constructor
    · rw [hOR]
      simp only [Bool.not_true, Bool.false_and, if_neg (by simp : ¬(false = true))]
      constructor
      · rintro ⟨s, hs⟩; cases hs
      · rintro ⟨hn, -⟩; exact absurd hmem hn
    · rintro ⟨hn, -⟩; exact absurd hmem hn
  · have hOR' : qlHasORTerm (joinChildren l) = false := by
      cases h : qlHasORTerm (joinChildren l) <;> simp_all
    by_cases hLW : is_list_within (joinChildren l) = true
    · have hg : ¬∀ g : QL, QS.group g ∉ (joinChildren l).toList := by
        intro hgg
        rw [← is_list_within_false_iff] at hgg
        simp [hLW] at hgg
      constructor
      · rw [hOR', hLW]
        simp only [Bool.not_false, Bool.not_true, Bool.true_and,
          if_neg (by simp : ¬(false = true))]
        constructor
        · rintro ⟨s, hs⟩; cases hs
        · rintro ⟨-, hgg⟩; exact absurd hgg hg
      · rintro ⟨-, hgg⟩; exact absurd hgg hg
    · have hLW' : is_list_within (joinChildren l) = false := by
        cases h : is_list_within (joinChildren l) <;> simp_all
      rw [hOR', hLW']
      simp only [Bool.not_false, Bool.true_and, if_pos rfl]
      refine ⟨⟨fun _ => ⟨(qlHasORTerm_false_iff _).mp hOR',
        (is_list_within_false_iff _).mp hLW'⟩, fun _ => ⟨_, rfl⟩⟩, fun _ => rfl⟩

/-- Counterexample to C4 as stated: the flattened children a, or, b contain
the lowercase term or, whose upper case is OR, yet the children are still
joined into the single string a or b; the membership test of the source is
case-sensitive, so a lowercase or does not prevent joining. -/
theorem c4_flattener_cex :
    join_keyword (QS.group (QL.ofList [QS.term "a", QS.term "or", QS.term "b"]))
      = QS.term "a or b"
    ∧ QS.term "or" ∈ (joinChildren (QL.ofList [QS.term "a", QS.term "or", QS.term "b"])).toList
    ∧ pyUpper "or" = "OR" := by decide

/-- Witness for c4_flattener_join_condition at the children x, y. -/
theorem c4_flattener_witness :
    join_keyword (QS.group (QL.ofList [QS.term "x", QS.term "y"]))
      = QS.term (spaceJoin (qlTermStrings (joinChildren (QL.ofList [QS.term "x", QS.term "y"])))) := by
  refine (c4_flattener_join_condition (QL.ofList [QS.term "x", QS.term "y"])).2 ⟨?_, ?_⟩
  · decide
  · have h : (joinChildren (QL.ofList [QS.term "x", QS.term "y"])).toList
        = [QS.term "x", QS.term "y"] := by decide
    rw [h]
    intro g hg
    simp at hg

/-! ## The tokenizer (claim C5) -/

/-- C5 (amended): the operator alternatives of the token pattern are
case-sensitive: the exact uppercase words AND and OR are matched with word
boundaries before the fallback run of non-whitespace non-parenthesis
characters, so AND-b splits into AND and -b while and-b stays one token;
a whitespace-delimited operator word of any letter case still forms its
own token, via the fallback. -/
theorem c5_tokenizer_operators :
    (∀ w ∈ (["AND", "ANd", "AnD", "And", "aND", "aNd", "anD", "and",
             "OR", "Or", "oR", "or"] : List String),
      tokenize ("x " ++ w ++ " y") = ["x", w, "y"])
    ∧ tokenize "AND-b" = ["AND", "-b"] ∧ tokenize "and-b" = ["and-b"] := by decide

/-- Counterexample to C5 as stated: the word and is word-bounded at the
start of and-b, but it is not split off as its own token; the uppercase
AND-b is split.  The operator alternatives are case-sensitive. -/
theorem c5_tokenizer_cex :
    tokenize "and-b" = ["and-b"] ∧ "and" ∉ tokenize "and-b"
    ∧ tokenize "AND-b" = ["AND", "-b"] := by decide

/-- Witness for c5_tokenizer_operators at the lowercase word and. -/
theorem c5_tokenizer_witness : tokenize ("x " ++ "and" ++ " y") = ["x", "and", "y"] :=
  c5_tokenizer_operators.1 "and" (by decide)

/-! ## The OR-keyword tagger (claims C6 and C1) -/

theorem finalizeHints_firsts : ∀ kl : List (String × Option String),
    (finalizeHints kl).map Prod.fst = kl.map Prod.fst
  | [] => rfl
  | [k] => rfl
  | k :: k' :: r => by
    simp [finalizeHints, List.map_map, Function.comp]

theorem finalizeHints_eq_tag : ∀ kl : List (String × Option String),
    finalizeHints kl = tagTermsSpec (kl.map Prod.fst)
  | [] => rfl
  | [k] => rfl
  | k :: k' :: r => by
    simp [finalizeHints, tagTermsSpec, List.map_map, Function.comp]

mutual
theorem gok_firsts : ∀ q : QS, (get_or_keyword q).map Prod.fst = collectLeafTerms q
  | .term s => by
    rw [get_or_keyword, collectLeafTerms, finalizeHints_firsts]
    by_cases h : isOp s = true <;> simp [h]
  | .group l => by
    rw [get_or_keyword, finalizeHints_firsts, rawList_firsts l]
    rfl
termination_by structural q => q

theorem rawList_firsts : ∀ l : QL, (rawKeywordList l).map Prod.fst = collectLeafList l
  | .nil => rfl
  | .cons (.term s) rest => by
    rw [rawKeywordList, collectLeafList]
    by_cases h : isOp s = true <;> simp [h, rawList_firsts rest]
  | .cons (.group g) rest => by
    rw [rawKeywordList, collectLeafList, List.map_append, gok_firsts (QS.group g),
      rawList_firsts rest]
    rfl
termination_by structural l => l
end

/-- The tagger factors through the leaf-term collection of the spec: raw
collection gives the untagged leaf terms in depth-first order, and the
final pass retags them by position, overwriting the hints produced by
nested recursive calls. -/
theorem get_or_keyword_eq_tag : ∀ q : QS, get_or_keyword q = tagTermsSpec (collectLeafTerms q) := by
  intro q
  cases q with
  | term s =>
    rw [get_or_keyword, finalizeHints_eq_tag, collectLeafTerms]
    by_cases h : isOp s = true <;> simp [h]
  | group l =>
    rw [get_or_keyword, finalizeHints_eq_tag, rawList_firsts]
    rfl

/-- C6: get_or_keyword collects exactly the leaf terms that are not
case-insensitively AND or OR, in left-to-right depth-first order with
operators dropped, and tags the first entry "after" and all later entries
"before" when more than one term exists, a lone entry getting no hint. -/
theorem c6_tagger_collects_and_tags : ∀ q : QS,
    get_or_keyword q = tagTermsSpec (collectLeafTerms q) :=
  get_or_keyword_eq_tag


/-! ## Literal character data -/

@[simp] theorem data_space : (" " : String).data = [' '] := rfl
@[simp] theorem data_OR : ("OR" : String).data = ['O', 'R'] := rfl
@[simp] theorem data_lparen : ("(" : String).data = ['('] := rfl
@[simp] theorem data_rparen : (")" : String).data = [')'] := rfl
@[simp] theorem data_rparen_OR_sp : (") OR " : String).data = [')', ' ', 'O', 'R', ' '] := rfl
@[simp] theorem data_sp_OR_lparen : (" OR (" : String).data = [' ', 'O', 'R', ' ', '('] := rfl
@[simp] theorem data_sp_OR_sp : (" OR " : String).data = [' ', 'O', 'R', ' '] := rfl
@[simp] theorem data_nil : ("" : String).data = [] := rfl

/-! ## Idempotence of the flattener (claim C9) -/

/-- A space-join of strings none of which is OR is never the string OR:
with two or more parts the result contains a space character. -/
theorem spaceJoin_ne_OR : ∀ sl : List String, (∀ x ∈ sl, x ≠ "OR") → spaceJoin sl ≠ "OR"
  | [], _ => by decide
  | [x], h => h x (by simp)
  | x :: y :: r, h => by
    intro heq
    have hsj : spaceJoin (x :: y :: r) = x ++ " " ++ spaceJoin (y :: r) := rfl
    have hmem : ' ' ∈ (spaceJoin (x :: y :: r)).data := by
      rw [hsj]
      simp [String.data_append]
    rw [heq] at hmem
    exact absurd hmem (by decide)

theorem qlTermStrings_ne_OR : ∀ m : QL, qlHasORTerm m = false → is_list_within m = false →
    ∀ x ∈ qlTermStrings m, x ≠ "OR"
  | .nil => by simp [qlTermStrings]
  | .cons (.term s) rest => by
    intro hOR hLW x hx
    rw [qlHasORTerm] at hOR
    rw [is_list_within] at hLW
    rw [qlTermStrings] at hx
    rcases List.mem_cons.mp hx with h | h
    · subst h
      intro hxOR
      subst hxOR
      simp at hOR
    · exact qlTermStrings_ne_OR rest (Bool.or_eq_false_iff.mp hOR).2 hLW x h
  | .cons (.group g) rest => by
    intro hOR hLW
    rw [is_list_within] at hLW
    cases hLW

/-- A term other than OR passes through the flattener unchanged. -/
theorem join_keyword_term_ne : ∀ s : String, s ≠ "OR" → join_keyword (QS.term s) = QS.term s := by
  intro s hs
  rw [join_keyword, joinFinish]
  have h1 : qlHasORTerm (QL.cons (QS.term s) .nil) = false := by
    simp [qlHasORTerm, qlHasORTerm, hs]
  have h2 : is_list_within (QL.cons (QS.term s) .nil) = false := rfl
  rw [h1, h2]
  simp [qlTermStrings, qlTermStrings, spaceJoin]

mutual
theorem join_keyword_idem : ∀ q : QS, join_keyword (join_keyword q) = join_keyword q
  | .term s => by
    by_cases hs : s = "OR"
    · subst hs; decide
    · rw [join_keyword_term_ne s hs, join_keyword_term_ne s hs]
  | .group l => by
    rw [join_keyword]
    by_cases hc : (!qlHasORTerm (joinChildren l) && !is_list_within (joinChildren l)) = true
    · have hterm : joinFinish (joinChildren l)
          = QS.term (spaceJoin (qlTermStrings (joinChildren l))) := by
        rw [joinFinish, if_pos hc]
      rw [hterm]
      apply join_keyword_term_ne
      apply spaceJoin_ne_OR
      have hab := hc
      simp only [Bool.and_eq_true, Bool.not_eq_true'] at hab
      exact qlTermStrings_ne_OR (joinChildren l) hab.1 hab.2
    · have hgrp : joinFinish (joinChildren l) = QS.group (joinChildren l) := by
        rw [joinFinish, if_neg hc]
      rw [hgrp, join_keyword, joinChildren_idem l, hgrp]
termination_by structural q => q

theorem joinChildren_idem : ∀ l : QL, joinChildren (joinChildren l) = joinChildren l
  | .nil => rfl
  | .cons (.term s) rest => by
    have e1 : joinChildren (QL.cons (QS.term s) rest)
        = QL.cons (QS.term s) (joinChildren rest) := by rw [joinChildren]
    rw [e1]
    have e2 : joinChildren (QL.cons (QS.term s) (joinChildren rest))
        = QL.cons (QS.term s) (joinChildren (joinChildren rest)) := by rw [joinChildren]
    rw [e2, joinChildren_idem rest]
  | .cons (.group g) rest => by
    have e1 : joinChildren (QL.cons (QS.group g) rest)
        = QL.cons (join_keyword (QS.group g)) (joinChildren rest) := by rw [joinChildren]
    rw [e1]
    cases hX : join_keyword (QS.group g) with
    | term s =>
      have e2 : joinChildren (QL.cons (QS.term s) (joinChildren rest))
          = QL.cons (QS.term s) (joinChildren (joinChildren rest)) := by rw [joinChildren]
      rw [e2, joinChildren_idem rest]
    | group h =>
      have e3 : joinChildren (QL.cons (QS.group h) (joinChildren rest))
          = QL.cons (join_keyword (QS.group h)) (joinChildren (joinChildren rest)) := by
        rw [joinChildren]
      rw [e3, joinChildren_idem rest]
      have hq2 := join_keyword_idem (QS.group g)
      rw [hX] at hq2
      rw [hq2]
termination_by structural l => l
end

/-- C9: the flattener is idempotent: applying join_keyword a second time
to an already-flattened structure produces no further change. -/
theorem c9_flattener_idempotent : ∀ q : QS, join_keyword (join_keyword q) = join_keyword q :=
  join_keyword_idem


/-! ## Substring occurrence helpers -/

theorem isPre_self_append : ∀ (n z : List Char), isPre n (n ++ z) = true
  | [], _ => rfl
  | c :: n', z => by
    rw [List.cons_append, isPre]
    simp [isPre_self_append n' z]

theorem subOccurs_of_isPre : ∀ (n h : List Char), isPre n h = true → subOccurs n h = true
  | n, [], hp => by
    cases n with
    | nil => rfl
    | cons c n' => cases hp
  | n, c :: rest, hp => by
    rw [subOccurs, hp, Bool.true_or]

theorem subOccurs_append_left : ∀ (n g h : List Char),
    subOccurs n h = true → subOccurs n (g ++ h) = true
  | n, [], h, hs => hs
  | n, c :: g', h, hs => by
    rw [List.cons_append, subOccurs, subOccurs_append_left n g' h hs]
    simp

/-! ## OR-chains: reconstruction and tagging (claim C1) -/

theorem joinChildren_orChain : ∀ ts : List String, joinChildren (orChain ts) = orChain ts
  | [] => rfl
  | [t] => rfl
  | t :: t' :: r => by
    have e : orChain (t :: t' :: r)
        = QL.cons (QS.term t) (QL.cons (QS.term "OR") (orChain (t' :: r))) := rfl
    rw [e]
    have e2 : joinChildren (QL.cons (QS.term t) (QL.cons (QS.term "OR") (orChain (t' :: r))))
        = QL.cons (QS.term t) (QL.cons (QS.term "OR") (joinChildren (orChain (t' :: r)))) := rfl
    rw [e2, joinChildren_orChain (t' :: r)]

theorem qlHasORTerm_orChain : ∀ (t t' : String) (r : List String),
    qlHasORTerm (orChain (t :: t' :: r)) = true := by
  intro t t' r
  have e : orChain (t :: t' :: r)
      = QL.cons (QS.term t) (QL.cons (QS.term "OR") (orChain (t' :: r))) := rfl
  rw [e, qlHasORTerm, qlHasORTerm]
  simp

theorem spaceJoin_cons_of_ne : ∀ (a : String) (l : List String), l ≠ [] →
    spaceJoin (a :: l) = a ++ " " ++ spaceJoin l
  | _, [], h => absurd rfl h
  | _, _ :: _, _ => rfl

theorem reverseParts_orChain_ne_nil : ∀ ts : List String, ts ≠ [] →
    reverseParts (orChain ts) ≠ []
  | [], h => absurd rfl h
  | [t], _ => by
    have e : reverseParts (orChain [t])
        = [reverse_joined_keywords (QS.term t) false] := rfl
    rw [e]; simp
  | t :: t' :: r, _ => by
    have e : reverseParts (orChain (t :: t' :: r))
        = reverse_joined_keywords (QS.term t) false
          :: reverseParts (QL.cons (QS.term "OR") (orChain (t' :: r))) := rfl
    rw [e]; simp

theorem reverse_term_notOp : ∀ t : String, isOp t = false →
    reverse_joined_keywords (QS.term t) false = "(" ++ t ++ ")" := by
  intro t ht
  rw [reverse_joined_keywords, ht]
  simp

theorem spaceJoin_rev : ∀ ts : List String, (∀ x ∈ ts, isOp x = false) → ts ≠ [] →
    spaceJoin (reverseParts (orChain ts)) = orJoinStr ts
  | [], _, h => absurd rfl h
  | [t], h, _ => by
    have e1 : reverseParts (orChain [t])
        = [reverse_joined_keywords (QS.term t) false] := rfl
    rw [e1, reverse_term_notOp t (h t (by simp))]
    rfl
  | t :: t' :: r, h, _ => by
    have ih := spaceJoin_rev (t' :: r) (fun x hx => h x (by simp [hx])) (by simp)
    have e2 : reverseParts (orChain (t :: t' :: r))
        = reverse_joined_keywords (QS.term t) false
          :: reverse_joined_keywords (QS.term "OR") false
          :: reverseParts (orChain (t' :: r)) := rfl
    have e4 : reverse_joined_keywords (QS.term "OR") false = "OR" := by decide
    rw [e2, reverse_term_notOp t (h t (by simp)), e4]
    have e5 : spaceJoin (("(" ++ t ++ ")") :: "OR" :: reverseParts (orChain (t' :: r)))
        = ("(" ++ t ++ ")") ++ " " ++ spaceJoin ("OR" :: reverseParts (orChain (t' :: r))) := rfl
    rw [e5, spaceJoin_cons_of_ne "OR" _ (reverseParts_orChain_ne_nil (t' :: r) (by simp)), ih]
    have e6 : orJoinStr (t :: t' :: r) = "(" ++ t ++ ") OR " ++ orJoinStr (t' :: r) := rfl
    rw [e6]
    apply String.ext
    simp [String.data_append]

theorem afterOcc : ∀ (t t' : String) (r : List String),
    subOccurs (("(" ++ t ++ ") OR ").data) ((orJoinStr (t :: t' :: r)).data) = true := by
  intro t t' r
  have e6 : orJoinStr (t :: t' :: r) = "(" ++ t ++ ") OR " ++ orJoinStr (t' :: r) := rfl
  rw [e6]
  apply subOccurs_of_isPre
  have hd : (("(" ++ t ++ ") OR ") ++ orJoinStr (t' :: r)).data
      = ("(" ++ t ++ ") OR ").data ++ (orJoinStr (t' :: r)).data := by
    simp [String.data_append]
  rw [hd]
  exact isPre_self_append _ _

theorem beforeOccAux : ∀ (ts : List String) (x : String), x ∈ ts →
    subOccurs ((" OR (" ++ x ++ ")").data) ((" OR " ++ orJoinStr ts).data) = true
  | [], x, hx => by cases hx
  | [t], x, hx => by
    have hxt : x = t := by simpa using hx
    subst hxt
    apply subOccurs_of_isPre
    have hd : (" OR " ++ orJoinStr [x]).data = (" OR (" ++ x ++ ")").data ++ [] := by
      have e : orJoinStr [x] = "(" ++ x ++ ")" := rfl
      rw [e]; simp [String.data_append]
    rw [hd]
    exact isPre_self_append _ _
  | t :: t' :: r, x, hx => by
    have e6 : orJoinStr (t :: t' :: r) = "(" ++ t ++ ") OR " ++ orJoinStr (t' :: r) := rfl
    rcases List.mem_cons.mp hx with hxt | hxr
    · subst hxt
      apply subOccurs_of_isPre
      have hd : (" OR " ++ orJoinStr (x :: t' :: r)).data
          = (" OR (" ++ x ++ ")").data ++ (" OR " ++ orJoinStr (t' :: r)).data := by
        have e7 : orJoinStr (x :: t' :: r) = "(" ++ x ++ ") OR " ++ orJoinStr (t' :: r) := rfl
        rw [e7]; simp [String.data_append]
      rw [hd]
      exact isPre_self_append _ _
    · have ih := beforeOccAux (t' :: r) x hxr
      have hd : (" OR " ++ orJoinStr (t :: t' :: r)).data
          = (" OR (" ++ t ++ ")").data ++ (" OR " ++ orJoinStr (t' :: r)).data := by
        rw [e6]; simp [String.data_append]
      rw [hd]
      exact subOccurs_append_left _ _ _ ih

theorem beforeOccMain : ∀ (t : String) (rest : List String) (x : String), x ∈ rest →
    subOccurs ((" OR (" ++ x ++ ")").data) ((orJoinStr (t :: rest)).data) = true := by
  intro t rest x hx
  cases rest with
  | nil => cases hx
  | cons t' r =>
    have e6 : orJoinStr (t :: t' :: r) = "(" ++ t ++ ") OR " ++ orJoinStr (t' :: r) := rfl
    have hd : (orJoinStr (t :: t' :: r)).data
        = ("(" ++ t ++ ")").data ++ (" OR " ++ orJoinStr (t' :: r)).data := by
      rw [e6]; simp [String.data_append]
    rw [hd]
    exact subOccurs_append_left _ _ _ (beforeOccAux (t' :: r) x hx)

theorem rawKeywordList_orChain : ∀ ts : List String, (∀ x ∈ ts, isOp x = false) →
    rawKeywordList (orChain ts) = ts.map (fun t => (t, (none : Option String)))
  | [], _ => rfl
  | [t], h => by
    have e : orChain [t] = QL.cons (QS.term t) QL.nil := rfl
    rw [e]
    have e2 : rawKeywordList (QL.cons (QS.term t) QL.nil)
        = (if isOp t = true then [] else [(t, none)]) ++ rawKeywordList QL.nil := rfl
    rw [e2, h t (by simp)]
    simp [rawKeywordList]
  | t :: t' :: r, h => by
    have ih := rawKeywordList_orChain (t' :: r) (fun x hx => h x (by simp [hx]))
    have e : orChain (t :: t' :: r)
        = QL.cons (QS.term t) (QL.cons (QS.term "OR") (orChain (t' :: r))) := rfl
    rw [e]
    have e2 : rawKeywordList (QL.cons (QS.term t) (QL.cons (QS.term "OR") (orChain (t' :: r))))
        = (if isOp t = true then [] else [(t, none)])
          ++ ((if isOp "OR" = true then [] else [("OR", none)])
            ++ rawKeywordList (orChain (t' :: r))) := rfl
    rw [e2, h t (by simp), isOp_OR, ih]
    simp

/-- C1 (amended): over a flattened structure that is a single flat
OR-chain of two or more non-operator terms separated by the exact OR
operator, every tagged entry has its hinted literal substring occurring
verbatim in the reconstructed query: the substring (t1) OR  for the
"after" entry and  OR (ti) for each "before" entry.  The claim as stated
over every flattened structure fails; see the counterexample. -/
theorem c1_reconstruction_tagger_chain : ∀ (t : String) (rest : List String), rest ≠ [] →
    (∀ x ∈ t :: rest, isOp x = false) →
    join_keyword (QS.group (orChain (t :: rest))) = QS.group (orChain (t :: rest))
    ∧ ∀ p ∈ get_or_keyword (QS.group (orChain (t :: rest))),
      (p.2 = some "after" →
        subOccurs (("(" ++ p.1 ++ ") OR ").data)
          ((reverse_joined_keywords (QS.group (orChain (t :: rest))) true).data) = true)
      ∧ (p.2 = some "before" →
        subOccurs ((" OR (" ++ p.1 ++ ")").data)
          ((reverse_joined_keywords (QS.group (orChain (t :: rest))) true).data) = true) := by
  intro t rest hne h
  obtain ⟨t', r, rfl⟩ : ∃ t' r, rest = t' :: r := by
    cases rest with
    | nil => exact absurd rfl hne
    | cons a b => exact ⟨a, b, rfl⟩
  constructor
  · rw [join_keyword, joinChildren_orChain, joinFinish]
    rw [qlHasORTerm_orChain]
    simp
  · have hrev : reverse_joined_keywords (QS.group (orChain (t :: t' :: r))) true
        = orJoinStr (t :: t' :: r) := by
      rw [reverse_joined_keywords]
      simp only [if_pos rfl]
      exact spaceJoin_rev (t :: t' :: r) h (by simp)
    have hkw : get_or_keyword (QS.group (orChain (t :: t' :: r)))
        = (t, some "after") :: (t' :: r).map (fun x => (x, some "before")) := by
      rw [get_or_keyword, rawKeywordList_orChain (t :: t' :: r) h, finalizeHints_eq_tag]
      simp [tagTermsSpec, List.map_map, Function.comp]
    rw [hrev, hkw]
    intro p hp
    rcases List.mem_cons.mp hp with hp1 | hp2
    · subst hp1
      constructor
      · intro _
        exact afterOcc t t' r
      · intro hb
        simp at hb
    · obtain ⟨x, hx, rfl⟩ := List.mem_map.mp hp2
      constructor
      · intro ha
        simp at ha
      · intro _
        exact beforeOccMain t (t' :: r) x hx

/-- Counterexample to C1 as stated: the structure [[a, OR, b], AND, z] is
flattened (a fixed point of join_keyword), its tagger output carries the
entry (z, "before"), yet the substring  OR (z) does not occur in the
reconstructed string ((a) OR (b)) AND (z). -/
theorem c1_reconstruction_tagger_cex :
    join_keyword (QS.group (QL.ofList [QS.group (QL.ofList [QS.term "a", QS.term "OR",
        QS.term "b"]), QS.term "AND", QS.term "z"]))
      = QS.group (QL.ofList [QS.group (QL.ofList [QS.term "a", QS.term "OR", QS.term "b"]),
        QS.term "AND", QS.term "z"])
    ∧ ("z", some "before") ∈ get_or_keyword
        (QS.group (QL.ofList [QS.group (QL.ofList [QS.term "a", QS.term "OR", QS.term "b"]),
          QS.term "AND", QS.term "z"]))
    ∧ subOccurs (" OR (z)".data)
        ((reverse_joined_keywords
          (QS.group (QL.ofList [QS.group (QL.ofList [QS.term "a", QS.term "OR", QS.term "b"]),
            QS.term "AND", QS.term "z"])) true).data) = false := by
  decide

/-- Witness for c1_reconstruction_tagger_chain at the chain cat OR dog. -/
theorem c1_reconstruction_tagger_witness :
    join_keyword (QS.group (orChain ["cat", "dog"])) = QS.group (orChain ["cat", "dog"])
    ∧ ∀ p ∈ get_or_keyword (QS.group (orChain ["cat", "dog"])),
      (p.2 = some "after" →
        subOccurs (("(" ++ p.1 ++ ") OR ").data)
          ((reverse_joined_keywords (QS.group (orChain ["cat", "dog"])) true).data) = true)
      ∧ (p.2 = some "before" →
        subOccurs ((" OR (" ++ p.1 ++ ")").data)
          ((reverse_joined_keywords (QS.group (orChain ["cat", "dog"])) true).data) = true) :=
  c1_reconstruction_tagger_chain "cat" ["dog"] (by simp) (by decide)


/-! ## Replacement semantics of the elimination loop (claim C2) -/

theorem subOccurs_false_tail : ∀ {n : List Char} {c : Char} {rest : List Char},
    subOccurs n (c :: rest) = false → subOccurs n rest = false := by
  intro n c rest h
  rw [subOccurs] at h
  exact (Bool.or_eq_false_iff.mp h).2

theorem subOccurs_drop : ∀ (old : List Char) (s : List Char) (k : Nat),
    subOccurs old s = false → subOccurs old (List.drop k s) = false
  | old, s, 0, h => by simpa using h
  | old, [], _ + 1, h => by simpa using h
  | old, c :: rest, k + 1, h => by
    rw [List.drop_succ_cons]
    exact subOccurs_drop old rest k (subOccurs_false_tail h)

theorem pyReplaceAux_no_occurs : ∀ (old s : List Char) (fuel : Nat),
    subOccurs old s = false → pyReplaceAux old fuel s = s
  | old, [], fuel, _ => by cases fuel <;> rfl
  | old, c :: rest, 0, _ => rfl
  | old, c :: rest, fuel + 1, h => by
    rw [pyReplaceAux]
    have hp : isPre old (c :: rest) = false := by
      rw [subOccurs] at h
      exact (Bool.or_eq_false_iff.mp h).1
    rw [hp]
    simp only [Bool.and_false, Bool.false_eq_true, if_false]
    rw [pyReplaceAux_no_occurs old rest fuel (subOccurs_false_tail h)]

theorem occCount_zero_iff : ∀ (old s : List Char),
    occCount old s = 0 ↔ subOccurs old s = false
  | old, [] => by
    rw [occCount, subOccurs]
    by_cases ho : old.isEmpty = true <;> simp [ho]
  | old, c :: rest => by
    rw [occCount, subOccurs]
    by_cases hp : isPre old (c :: rest) = true
    · simp [hp]
    · have hp' : isPre old (c :: rest) = false := by
        cases h : isPre old (c :: rest) <;> simp_all
      simp [hp', occCount_zero_iff old rest]

theorem pyReplaceAux_single : ∀ (old s : List Char) (fuel : Nat), s.length ≤ fuel →
    old ≠ [] → occCount old s = 1 → pyReplaceAux old fuel s = removeFirstSpec old s
  | _, [], fuel, _, _, _ => by cases fuel <;> rfl
  | old, c :: rest, 0, hlen, _, _ => by simp at hlen
  | old, c :: rest, fuel + 1, hlen, hne, hocc => by
    rw [pyReplaceAux, removeFirstSpec]
    by_cases hp : isPre old (c :: rest) = true
    · have hcond : (decide (old ≠ []) && isPre old (c :: rest)) = true := by simp [hne, hp]
      rw [if_pos hcond, if_pos hcond]
      apply pyReplaceAux_no_occurs
      have h1 : occCount old rest = 0 := by
        rw [occCount, if_pos hp] at hocc
        omega
      exact subOccurs_drop old rest _ ((occCount_zero_iff old rest).mp h1)
    · have hp' : isPre old (c :: rest) = false := by
        cases h : isPre old (c :: rest) <;> simp_all
      have hcond : (decide (old ≠ []) && isPre old (c :: rest)) = false := by simp [hp']
      rw [if_neg (by rw [hcond]; simp), if_neg (by rw [hcond]; simp)]
      congr 1
      refine pyReplaceAux_single old rest fuel ?_ hne ?_
      · simp only [List.length_cons] at hlen
        omega
      · rw [occCount, hp'] at hocc
        simpa using hocc

theorem candidateQuery_no_occurs : ∀ (cur : String) (kw : String × Option String),
    subOccurs (replaceTextFor kw).data cur.data = false → candidateQuery cur kw = cur := by
  intro cur kw h
  rw [candidateQuery, pyReplace, pyReplaceAux_no_occurs _ _ _ h]

theorem replaceTextFor_ne_nil : ∀ kw : String × Option String, (replaceTextFor kw).data ≠ [] := by
  intro kw
  rw [replaceTextFor]
  by_cases h1 : kw.2 = some "before"
  · rw [if_pos h1]; simp [String.data_append]
  · rw [if_neg h1]
    by_cases h2 : kw.2 = some "after"
    · rw [if_pos h2]; simp [String.data_append]
    · rw [if_neg h2]; simp [String.data_append]

/-- C2 (amended): the candidate query of each search_pubmed iteration is
current_query.replace(replace_text, ""), i.e. the current query with every
left-to-right non-overlapping occurrence of the hinted substring removed:
an absent substring leaves the candidate equal to the current query, and a
substring occurring exactly once is removed exactly at its first (only)
occurrence.  With several occurrences, all of them are removed, not only
the first; see the counterexample. -/
theorem c2_candidate_replacement : ∀ (cur : String) (kw : String × Option String),
    (subOccurs (replaceTextFor kw).data cur.data = false → candidateQuery cur kw = cur)
    ∧ (occCount (replaceTextFor kw).data cur.data = 1 →
      (candidateQuery cur kw).data = removeFirstSpec (replaceTextFor kw).data cur.data) := by
  intro cur kw
  constructor
  · exact candidateQuery_no_occurs cur kw
  · intro h
    show (String.mk (pyReplace (replaceTextFor kw).data cur.data)).data = _
    rw [pyReplace, pyReplaceAux_single _ _ _ (Nat.le_refl _) ?hne h]
    case hne => exact replaceTextFor_ne_nil kw

/-- Counterexample to C2 as stated: with the hinted substring  OR (x)
occurring twice in the current query, the source replace removes both
occurrences, while first-occurrence removal would leave one. -/
theorem c2_candidate_replacement_cex :
    replaceTextFor ("x", some "before") = " OR (x)"
    ∧ candidateQuery "(a) OR (x) OR (x)" ("x", some "before") = "(a)"
    ∧ String.mk (removeFirstSpec (" OR (x)").data ("(a) OR (x) OR (x)").data) = "(a) OR (x)"
    ∧ ("(a)" : String) ≠ "(a) OR (x)" := by decide

/-- Witness for c2_candidate_replacement: an absent substring is a no-op,
and a once-occurring substring is removed at its only occurrence. -/
theorem c2_candidate_replacement_witness :
    candidateQuery "(a) AND (b)" ("x", some "before") = "(a) AND (b)"
    ∧ (candidateQuery "(a) OR (x) AND (b)" ("x", some "before")).data
      = removeFirstSpec (replaceTextFor ("x", some "before")).data ("(a) OR (x) AND (b)").data :=
  ⟨(c2_candidate_replacement _ _).1 (by decide), (c2_candidate_replacement _ _).2 (by decide)⟩


/-! ## Parser equations and the round trip (claims C7 and C8) -/

theorem parse_tokens_nil : parse_tokens [] = (.nil, []) := by
  rw [parse_tokens, parseAux]

theorem parse_tokens_rparen : ∀ ts : List String, parse_tokens (")" :: ts) = (.nil, ts) := by
  intro ts
  rw [parse_tokens, parseAux]
  simp

theorem parse_tokens_cons_term : ∀ (t : String) (ts : List String), t ≠ "(" → t ≠ ")" →
    parse_tokens (t :: ts) = (QL.cons (QS.term t) (parse_tokens ts).1, (parse_tokens ts).2) := by
  intro t ts h1 h2
  rw [parse_tokens, parseAux]
  rw [if_neg h1, if_neg h2]
  rcases hts : parseAux ts with ⟨⟨tree, rest⟩, hl⟩
  simp [parse_tokens, hts]

theorem parse_tokens_lparen : ∀ ts : List String,
    parse_tokens ("(" :: ts)
      = (QL.cons (QS.group (parse_tokens ts).1) (parse_tokens (parse_tokens ts).2).1,
         (parse_tokens (parse_tokens ts).2).2) := by
  intro ts
  rcases h1 : parseAux ts with ⟨⟨sub, r1⟩, hl1⟩
  rcases h2 : parseAux r1 with ⟨⟨tr, r2⟩, hl2⟩
  have e1 : parse_tokens ts = (sub, r1) := by rw [parse_tokens, h1]
  have e2 : parse_tokens r1 = (tr, r2) := by rw [parse_tokens, h2]
  rw [parse_tokens, parseAux, if_pos rfl, h1]
  rw [e1]
  simp only []
  rw [h2, e2]

theorem bal_parse : ∀ ts : List String, Bal ts → ∃ tree : QL,
    (∀ rest, parse_tokens (ts ++ rest)
        = (qlAppend tree (parse_tokens rest).1, (parse_tokens rest).2))
    ∧ flattenTokens tree = ts.filter (fun t => !(t == "(" || t == ")")) := by
  intro ts hb
  induction hb with
  | nil =>
    exact ⟨.nil, fun rest => by simp [qlAppend], by simp [flattenTokens]⟩
  | tok t ts h1 h2 hbal ih =>
    obtain ⟨tree, hp, hf⟩ := ih
    refine ⟨QL.cons (QS.term t) tree, ?_, ?_⟩
    · intro rest
      rw [List.cons_append, parse_tokens_cons_term t _ h1 h2, hp rest]
      rfl
    · have hft : flattenTokens (QL.cons (QS.term t) tree) = t :: flattenTokens tree := rfl
      have hpred : (!(t == "(" || t == ")")) = true := by simp [h1, h2]
      rw [hft, hf, List.filter_cons, hpred]
      simp
  | paren inner ts hbi hbt ihi iht =>
    obtain ⟨ti, hpi, hfi⟩ := ihi
    obtain ⟨tt, hpt, hft⟩ := iht
    refine ⟨QL.cons (QS.group ti) tt, ?_, ?_⟩
    · intro rest
      have e : ("(" :: inner ++ ")" :: ts) ++ rest = "(" :: (inner ++ ")" :: (ts ++ rest)) := by
        simp
      rw [e, parse_tokens_lparen]
      have hi' : parse_tokens (inner ++ ")" :: (ts ++ rest)) = (ti, ts ++ rest) := by
        rw [hpi (")" :: (ts ++ rest)), parse_tokens_rparen]
        simp [qlAppend_nil]
      rw [hi']
      have ht' := hpt rest
      simp only [ht']
      rfl
    · have hfg : flattenTokens (QL.cons (QS.group ti) tt)
          = flattenTokens ti ++ flattenTokens tt := rfl
      rw [hfg, hfi, hft]
      simp [List.filter_append, List.filter_cons]

/-- C7: for every input whose token sequence is balanced, flattening the
tree produced by parse_query reproduces the token sequence produced by
tokenize with the parentheses removed, in order. -/
theorem c7_parser_round_trip : ∀ query : String, Bal (tokenize query) →
    flattenTokens (parse_query query)
      = (tokenize query).filter (fun t => !(t == "(" || t == ")")) := by
  intro q hb
  obtain ⟨tree, hp, hf⟩ := bal_parse (tokenize q) hb
  have h0 := hp []
  rw [List.append_nil, parse_tokens_nil] at h0
  have h1 : (parse_tokens (tokenize q)).1 = tree := by
    rw [h0]
    simp [qlAppend_nil]
  rw [parse_query, h1, hf]

/-- Witness for c7_parser_round_trip at the balanced input (a AND b) OR c. -/
theorem c7_parser_round_trip_witness :
    flattenTokens (parse_query "(a AND b) OR c")
      = (tokenize "(a AND b) OR c").filter (fun t => !(t == "(" || t == ")")) :=
  c7_parser_round_trip "(a AND b) OR c" (by
    have ht : tokenize "(a AND b) OR c" = ["(", "a", "AND", "b", ")", "OR", "c"] := by decide
    rw [ht]
    have hshape : (["(", "a", "AND", "b", ")", "OR", "c"] : List String)
        = "(" :: ["a", "AND", "b"] ++ ")" :: ["OR", "c"] := rfl
    rw [hshape]
    exact Bal.paren _ _
      (Bal.tok _ _ (by decide) (by decide)
        (Bal.tok _ _ (by decide) (by decide)
          (Bal.tok _ _ (by decide) (by decide) Bal.nil)))
      (Bal.tok _ _ (by decide) (by decide)
        (Bal.tok _ _ (by decide) (by decide) Bal.nil)))

theorem parse_terms_then_rparen : ∀ (pre post : List String),
    (∀ t ∈ pre, t ≠ "(" ∧ t ≠ ")") →
    parse_tokens (pre ++ ")" :: post) = (qlOfTerms pre, post)
  | [], post, _ => by simpa using parse_tokens_rparen post
  | t :: pre, post, h => by
    rw [List.cons_append, parse_tokens_cons_term t _ (h t (by simp)).1 (h t (by simp)).2,
      parse_terms_then_rparen pre post (fun x hx => h x (by simp [hx]))]
    rfl

/-- C8: tokenization and parsing are total functions by construction; a
closing parenthesis with no enclosing opening parenthesis ends the current
group, the following tokens at that level being left unconsumed and then
dropped by parse_query.  Parsing a) AND b yields the group containing only
the term a; in general a parenthesis-free prefix before an unmatched
closing parenthesis parses to exactly that prefix with the suffix left
over. -/
theorem c8_unmatched_rparen :
    parse_query "a) AND b" = QL.cons (QS.term "a") QL.nil
    ∧ ∀ pre post : List String, (∀ t ∈ pre, t ≠ "(" ∧ t ≠ ")") →
      parse_tokens (pre ++ ")" :: post) = (qlOfTerms pre, post) := by
  refine ⟨?_, parse_terms_then_rparen⟩
  have ht : tokenize "a) AND b" = ["a", ")", "AND", "b"] := by decide
  rw [parse_query, ht]
  have hshape : (["a", ")", "AND", "b"] : List String) = ["a"] ++ ")" :: ["AND", "b"] := rfl
  rw [hshape, parse_terms_then_rparen ["a"] ["AND", "b"] (by decide)]
  rfl

/-- Witness for c8_unmatched_rparen: the prefix a before the unmatched
parenthesis parses to the single term a, the suffix AND b is discarded. -/
theorem c8_unmatched_rparen_witness :
    parse_tokens (["a"] ++ ")" :: ["AND", "b"]) = (qlOfTerms ["a"], ["AND", "b"]) :=
  c8_unmatched_rparen.2 ["a"] ["AND", "b"] (by decide)


/-! ## The elimination loop invariant (claim C10) -/

theorem searchStep_eq : ∀ (oracle : String → Nat) (base : Nat) (st : SearchLoopState)
    (kw : String × Option String),
    searchStep oracle base st kw
      = if oracle (candidateQuery st.currentQuery kw) = base then
          ⟨candidateQuery st.currentQuery kw, st.excluded ++ [kw.1]⟩
        else st := by
  intro oracle base st kw
  rfl

theorem searchStep_inv : ∀ (oracle : String → Nat) (base : Nat)
    (ks : List (String × Option String)) (st : SearchLoopState),
    oracle st.currentQuery = base →
    oracle (List.foldl (searchStep oracle base) st ks).currentQuery = base
  | _, _, [], _, h => h
  | oracle, base, kw :: ks, st, h => by
    rw [List.foldl_cons]
    apply searchStep_inv oracle base ks
    rw [searchStep_eq]
    by_cases hc : oracle (candidateQuery st.currentQuery kw) = base
    · rw [if_pos hc]; exact hc
    · rw [if_neg hc]; exact h

theorem foldl_excluded : ∀ (oracle : String → Nat) (base : Nat)
    (ks : List (String × Option String)) (st : SearchLoopState),
    ∃ e, (List.foldl (searchStep oracle base) st ks).excluded = st.excluded ++ e
      ∧ e.Sublist (ks.map Prod.fst)
  | _, _, [], st => ⟨[], by simp, by simp⟩
  | oracle, base, kw :: ks, st => by
    rw [List.foldl_cons, searchStep_eq]
    by_cases hc : oracle (candidateQuery st.currentQuery kw) = base
    · rw [if_pos hc]
      obtain ⟨e, he, hs⟩ := foldl_excluded oracle base ks
        ⟨candidateQuery st.currentQuery kw, st.excluded ++ [kw.1]⟩
      refine ⟨kw.1 :: e, ?_, ?_⟩
      · rw [he]; simp
      · rw [List.map_cons]; exact List.Sublist.cons₂ _ hs
    · rw [if_neg hc]
      obtain ⟨e, he, hs⟩ := foldl_excluded oracle base ks st
      exact ⟨e, he, List.Sublist.cons _ hs⟩

/-- C10: with the oracle modelled as a pure function of the query string,
the count of the current query equals the baseline count at the start of
every loop iteration of search_pubmed; the returned excluded list is an
in-order subsequence of the tagged-term list; and a tagged term whose
hinted substring does not occur in the current query is necessarily
appended to the excluded list although its removal leaves the query
unchanged. -/
theorem c10_search_loop_invariant : ∀ (oracle : String → Nat) (query : String)
    (ks : List (String × Option String)),
    (∀ pre suf : List (String × Option String), ks = pre ++ suf →
      oracle (List.foldl (searchStep oracle (oracle query))
        ⟨query, []⟩ pre).currentQuery = oracle query)
    ∧ (search_pubmed oracle query ks).2.2.Sublist (ks.map Prod.fst)
    ∧ ∀ (pre : List (String × Option String)) (kw : String × Option String)
        (suf : List (String × Option String)), ks = pre ++ kw :: suf →
      subOccurs (replaceTextFor kw).data
        (List.foldl (searchStep oracle (oracle query))
          ⟨query, []⟩ pre).currentQuery.data = false →
      kw.1 ∈ (search_pubmed oracle query ks).2.2 := by
  intro oracle query ks
  refine ⟨?_, ?_, ?_⟩
  · intro pre suf hks
    exact searchStep_inv oracle (oracle query) pre ⟨query, []⟩ rfl
  · obtain ⟨e, he, hs⟩ := foldl_excluded oracle (oracle query) ks ⟨query, []⟩
    show (List.foldl (searchStep oracle (oracle query)) ⟨query, []⟩ ks).excluded.Sublist
      (ks.map Prod.fst)
    rw [he]
    simpa using hs
  · intro pre kw suf hks hno
    subst hks
    show kw.1 ∈ (List.foldl (searchStep oracle (oracle query))
      ⟨query, []⟩ (pre ++ kw :: suf)).excluded
    rw [List.foldl_append, List.foldl_cons]
    have hinv : oracle (List.foldl (searchStep oracle (oracle query))
        ⟨query, []⟩ pre).currentQuery = oracle query :=
      searchStep_inv oracle (oracle query) pre ⟨query, []⟩ rfl
    have hcq := candidateQuery_no_occurs _ kw hno
    have hstep : searchStep oracle (oracle query)
        (List.foldl (searchStep oracle (oracle query)) ⟨query, []⟩ pre) kw
        = ⟨(List.foldl (searchStep oracle (oracle query)) ⟨query, []⟩ pre).currentQuery,
           (List.foldl (searchStep oracle (oracle query)) ⟨query, []⟩ pre).excluded
             ++ [kw.1]⟩ := by
      rw [searchStep_eq, hcq, if_pos hinv]
    rw [hstep]
    obtain ⟨e, he, -⟩ := foldl_excluded oracle (oracle query) suf
      ⟨(List.foldl (searchStep oracle (oracle query)) ⟨query, []⟩ pre).currentQuery,
       (List.foldl (searchStep oracle (oracle query)) ⟨query, []⟩ pre).excluded ++ [kw.1]⟩
    rw [he]
    simp

/-- Witness for c10_search_loop_invariant: with a constant oracle, the
term moose, absent from the query, is excluded although its removal is a
no-op. -/
theorem c10_search_loop_invariant_witness :
    "moose" ∈ (search_pubmed (fun _ => 42) "(cat) OR (dog)"
      [("cat", some "after"), ("moose", some "before")]).2.2 :=
  (c10_search_loop_invariant (fun _ => 42) "(cat) OR (dog)"
      [("cat", some "after"), ("moose", some "before")]).2.2
    [("cat", some "after")] ("moose", some "before") [] rfl (by decide)

end PubMedOpt
